import Mathlib

/-!
Verification of the harvest-and-consolidate control logic of the
scrape-extract-jobs repository.

Strings are modelled as Lean `String` / `List Char`; Python's substring
test (`in`), `str.split`, `str.replace` and `str.lower` are embedded as
executable functions below.  Fallible Python code (uncaught exceptions)
is embedded with `Except PyErr`.
-/

/-- The kinds of uncaught Python exceptions the embedded code can raise. -/
inductive PyErr where
  | keyError
  | valueError
  | attributeError
  | modelError
deriving DecidableEq, Repr

/-- Python substring test `sub in hay` on character lists. -/
def listContains (hay sub : List Char) : Bool :=
  (List.range (hay.length + 1)).any (fun i => sub.isPrefixOf (hay.drop i))

/-- Python substring test `sub in s` on strings. -/
def strContains (s sub : String) : Bool :=
  listContains s.data sub.data

/-- Python `str.lower` (ASCII case folding, which covers every constant in
the repository). -/
def pyLower (s : String) : String :=
  String.mk (s.data.map Char.toLower)

/-- Fuel-indexed worker for Python split on a non-empty separator
`a :: as` (structural in the fuel, so the kernel can evaluate it; the
fuel never runs out when it starts at the string length). -/
def pySplitF (a : Char) (as : List Char) (fuel : Nat) (s : List Char) : List (List Char) :=
  match s, fuel with
  | [], _ => [[]]
  | _ :: _, 0 => [[]]
  | c :: rest, fuel + 1 =>
    if (a :: as).isPrefixOf (c :: rest) then
      [] :: pySplitF a as fuel (rest.drop as.length)
    else
      match pySplitF a as fuel rest with
      | [] => [[c]]
      | t :: ts => (c :: t) :: ts

/-- Python split on a non-empty separator `a :: as`:
greedy left-to-right scan cutting the string at each non-overlapping
occurrence of the separator. -/
def pySplitNE (a : Char) (as : List Char) (s : List Char) : List (List Char) :=
  pySplitF a as s.length s

theorem pySplitF_nilStr (a : Char) (as : List Char) (f : Nat) : pySplitF a as f [] = [[]] := by
  cases f <;> rfl

/-- The fuel argument is irrelevant as long as it dominates the string length. -/
theorem pySplitF_congr (a : Char) (as : List Char) :
    ∀ (n : Nat) (s : List Char), s.length ≤ n → ∀ f g, s.length ≤ f → s.length ≤ g →
      pySplitF a as f s = pySplitF a as g s := by
  intro n
  induction n with
  | zero =>
    intro s hs f g _ _
    have : s = [] := List.eq_nil_of_length_eq_zero (Nat.le_zero.mp hs)
    subst this
    rw [pySplitF_nilStr, pySplitF_nilStr]
  | succ n ih =>
    intro s hs f g hf hg
    match s, f, g with
    | [], _, _ => rw [pySplitF_nilStr, pySplitF_nilStr]
    | c :: rest, 0, _ => simp at hf
    | c :: rest, _ + 1, 0 => simp at hg
    | c :: rest, f + 1, g + 1 =>
      simp only [List.length_cons] at hs hf hg
      simp only [pySplitF]
      by_cases h : (a :: as).isPrefixOf (c :: rest)
      · simp only [h, if_true]
        have hd : (rest.drop as.length).length ≤ n := by
          simp only [List.length_drop]
          omega
        have := ih (rest.drop as.length) hd f g
          (by simp only [List.length_drop]; omega) (by simp only [List.length_drop]; omega)
        rw [this]
      · have hr : pySplitF a as f rest = pySplitF a as g rest :=
          ih rest (by omega) f g (by omega) (by omega)
        simp [h, hr]

/-- The offset-accumulating loop of `career_page_html_extractor.find_substring`:
`k` is the separator length; each split chunk contributes its start-of-next-match
position and advances the running offset by `len(substring) + len(chunk)`. -/
def posAux (k : Nat) (parts : List (List Char)) (off : Nat) : List Nat :=
  match parts with
  | [] => []
  | p :: ps => (p.length + off) :: posAux k ps (off + k + p.length)

/-- `career_page_html_extractor.find_substring` for a non-empty search
string `a :: as`: split on the search string and accumulate consumed
lengths over all chunks but the last. -/
def find_substring_pos (a : Char) (as s : List Char) : List Nat :=
  posAux (as.length + 1) (pySplitNE a as s).dropLast 0

/-- `career_page_html_extractor.find_substring`.  Python raises
`ValueError` when the search string is empty (`str.split('')`). -/
def find_substring (substring s : List Char) : Except PyErr (List Nat) :=
  match substring with
  | [] => .error .valueError
  | a :: as => .ok (find_substring_pos a as s)

/-- Reference greedy scanner: the starting offsets (relative base `off`)
of the leftmost non-overlapping occurrences of `a :: as` in `s`. -/
def greedyOccs (a : Char) (as : List Char) (off : Nat) (s : List Char) : List Nat :=
  match s with
  | [] => []
  | c :: rest =>
    if (a :: as).isPrefixOf (c :: rest) then
      off :: greedyOccs a as (off + (as.length + 1)) (rest.drop as.length)
    else
      greedyOccs a as (off + 1) rest
termination_by s.length
decreasing_by
  · simp only [List.length_cons, List.length_drop]
    omega
  · simp only [List.length_cons]
    omega

/-- All true starting offsets of `A` in `T`, in increasing order
(the spec's notion of "true offsets `[o1, o2, ...]`"). -/
def occurrences (A T : List Char) : List Nat :=
  (List.range (T.length + 1)).filter (fun i => A.isPrefixOf (T.drop i))

theorem pySplitNE_nil (a : Char) (as : List Char) : pySplitNE a as [] = [[]] := rfl

theorem pySplitF_to_NE (a : Char) (as : List Char) (f : Nat) (s : List Char)
    (hf : s.length ≤ f) : pySplitF a as f s = pySplitNE a as s :=
  pySplitF_congr a as s.length s le_rfl f s.length hf le_rfl

theorem pySplitNE_cons_pos {a : Char} {as : List Char} {c : Char} {rest : List Char}
    (h : (a :: as).isPrefixOf (c :: rest)) :
    pySplitNE a as (c :: rest) = [] :: pySplitNE a as (rest.drop as.length) := by
  show pySplitF a as ((c :: rest).length) (c :: rest) = _
  simp only [List.length_cons, pySplitF, h, if_true]
  rw [pySplitF_to_NE a as rest.length (rest.drop as.length)
    (by simp only [List.length_drop]; omega)]

theorem pySplitNE_cons_neg {a : Char} {as : List Char} {c : Char} {rest : List Char}
    (h : ¬ (a :: as).isPrefixOf (c :: rest)) {t : List Char} {ts : List (List Char)}
    (hrec : pySplitNE a as rest = t :: ts) :
    pySplitNE a as (c :: rest) = (c :: t) :: ts := by
  show pySplitF a as ((c :: rest).length) (c :: rest) = _
  simp only [List.length_cons, pySplitF, h, if_false]
  rw [pySplitF_to_NE a as rest.length rest le_rfl, hrec]
  simp [h]

theorem pySplitNE_ne_nil (a : Char) (as s : List Char) : pySplitNE a as s ≠ [] := by
  match s with
  | [] =>
    rw [pySplitNE_nil]
    simp
  | c :: rest =>
    by_cases h : (a :: as).isPrefixOf (c :: rest)
    · rw [pySplitNE_cons_pos h]
      simp
    · match hrec : pySplitNE a as rest with
      | [] =>
        exact absurd hrec (pySplitNE_ne_nil a as rest)
      | t :: ts =>
        rw [pySplitNE_cons_neg h hrec]
        simp

theorem greedyOccs_nil (a : Char) (as : List Char) (off : Nat) :
    greedyOccs a as off [] = [] := by
  rw [greedyOccs]

theorem greedyOccs_cons_pos {a : Char} {as : List Char} {c : Char} {rest : List Char}
    (off : Nat) (h : (a :: as).isPrefixOf (c :: rest)) :
    greedyOccs a as off (c :: rest) =
      off :: greedyOccs a as (off + (as.length + 1)) (rest.drop as.length) := by
  rw [greedyOccs]
  simp [h]

theorem greedyOccs_cons_neg {a : Char} {as : List Char} {c : Char} {rest : List Char}
    (off : Nat) (h : ¬ (a :: as).isPrefixOf (c :: rest)) :
    greedyOccs a as off (c :: rest) = greedyOccs a as (off + 1) rest := by
  rw [greedyOccs]
  simp [h]

/-- The split-and-accumulate offset computation coincides with the greedy
leftmost non-overlapping occurrence scan, at every base offset. -/
theorem posAux_pySplitNE_eq_greedy (a : Char) (as : List Char) :
    ∀ (n : Nat) (s : List Char), s.length ≤ n → ∀ off,
      posAux (as.length + 1) (pySplitNE a as s).dropLast off = greedyOccs a as off s := by
  intro n
  induction n with
  | zero =>
    intro s hs off
    have : s = [] := List.eq_nil_of_length_eq_zero (Nat.le_zero.mp hs)
    subst this
    rw [pySplitNE_nil, greedyOccs_nil]
    rfl
  | succ n ih =>
    intro s hs off
    match s with
    | [] =>
      rw [pySplitNE_nil, greedyOccs_nil]
      rfl
    | c :: rest =>
      by_cases h : (a :: as).isPrefixOf (c :: rest)
      · rw [pySplitNE_cons_pos h, greedyOccs_cons_pos off h]
        obtain ⟨q, qs, hqq⟩ :=
          List.exists_cons_of_ne_nil (pySplitNE_ne_nil a as (rest.drop as.length))
        rw [hqq, List.dropLast_cons₂]
        rw [posAux]
        have hlen : (rest.drop as.length).length ≤ n := by
          simp only [List.length_cons] at hs
          simp only [List.length_drop]
          omega
        have := ih (rest.drop as.length) hlen (off + (as.length + 1))
        rw [hqq] at this
        rw [← this]
        simp only [List.length_nil, Nat.zero_add, Nat.add_zero]
      · obtain ⟨t, ts, hts⟩ := List.exists_cons_of_ne_nil (pySplitNE_ne_nil a as rest)
        rw [pySplitNE_cons_neg h hts, greedyOccs_cons_neg off h]
        have hlen : rest.length ≤ n := by
          simp only [List.length_cons] at hs
          omega
        have := ih rest hlen (off + 1)
        rw [hts] at this
        match ts with
        | [] =>
          simp only [List.dropLast_single]
          rw [← this]
          simp [posAux]
        | u :: us =>
          rw [List.dropLast_cons₂] at this ⊢
          rw [posAux] at this ⊢
          rw [← this]
          simp only [List.length_cons]
          have h1 : t.length + 1 + off = t.length + (off + 1) := by omega
          have h2 : off + (as.length + 1) + (t.length + 1) =
              off + 1 + (as.length + 1) + t.length := by omega
          rw [h1, h2]

theorem find_substring_pos_eq_greedy (a : Char) (as s : List Char) :
    find_substring_pos a as s = greedyOccs a as 0 s :=
  posAux_pySplitNE_eq_greedy a as s.length s le_rfl 0

theorem drop_drop_cons (c : Char) (rest : List Char) (m j : Nat) :
    (c :: rest).drop (j + (m + 1)) = (rest.drop m).drop j := by
  rw [List.drop_drop]
  have h1 : j + (m + 1) = (m + j) + 1 := by omega
  rw [h1, List.drop_succ_cons]

/-- Every reported offset is a true occurrence (relative to the base offset). -/
theorem greedyOccs_sound (a : Char) (as : List Char) :
    ∀ (n : Nat) (s : List Char), s.length ≤ n → ∀ off o,
      o ∈ greedyOccs a as off s →
      ∃ j, o = off + j ∧ (a :: as).isPrefixOf (s.drop j) := by
  intro n
  induction n with
  | zero =>
    intro s hs off o ho
    have : s = [] := List.eq_nil_of_length_eq_zero (Nat.le_zero.mp hs)
    subst this
    rw [greedyOccs_nil] at ho
    exact absurd ho (List.not_mem_nil o)
  | succ n ih =>
    intro s hs off o ho
    match s with
    | [] =>
      rw [greedyOccs_nil] at ho
      exact absurd ho (List.not_mem_nil o)
    | c :: rest =>
      by_cases h : (a :: as).isPrefixOf (c :: rest)
      · rw [greedyOccs_cons_pos off h] at ho
        rcases List.mem_cons.mp ho with rfl | ho
        · exact ⟨0, by omega, by simpa using h⟩
        · have hlen : (rest.drop as.length).length ≤ n := by
            simp only [List.length_cons] at hs
            simp only [List.length_drop]
            omega
          obtain ⟨j, rfl, hpre⟩ := ih (rest.drop as.length) hlen (off + (as.length + 1)) o ho
          refine ⟨j + (as.length + 1), by omega, ?_⟩
          rw [drop_drop_cons]
          exact hpre
      · rw [greedyOccs_cons_neg off h] at ho
        have hlen : rest.length ≤ n := by
          simp only [List.length_cons] at hs
          omega
        obtain ⟨j, rfl, hpre⟩ := ih rest hlen (off + 1) o ho
        exact ⟨j + 1, by omega, by simpa using hpre⟩

/-- Reported offsets are bounded below by the base offset and consecutive
ones are at least one full pattern length apart (hence strictly increasing
and duplicate-free). -/
theorem greedyOccs_lb_chain (a : Char) (as : List Char) :
    ∀ (n : Nat) (s : List Char), s.length ≤ n → ∀ off,
      (∀ o ∈ greedyOccs a as off s, off ≤ o) ∧
      List.Chain' (fun x y => x + (as.length + 1) ≤ y) (greedyOccs a as off s) := by
  intro n
  induction n with
  | zero =>
    intro s hs off
    have : s = [] := List.eq_nil_of_length_eq_zero (Nat.le_zero.mp hs)
    subst this
    rw [greedyOccs_nil]
    exact ⟨by simp, List.chain'_nil⟩
  | succ n ih =>
    intro s hs off
    match s with
    | [] =>
      rw [greedyOccs_nil]
      exact ⟨by simp, List.chain'_nil⟩
    | c :: rest =>
      by_cases h : (a :: as).isPrefixOf (c :: rest)
      · rw [greedyOccs_cons_pos off h]
        have hlen : (rest.drop as.length).length ≤ n := by
          simp only [List.length_cons] at hs
          simp only [List.length_drop]
          omega
        obtain ⟨hlb, hch⟩ := ih (rest.drop as.length) hlen (off + (as.length + 1))
        refine ⟨?_, ?_⟩
        · intro o ho
          rcases List.mem_cons.mp ho with rfl | ho
          · exact le_rfl
          · have := hlb o ho
            omega
        · rw [List.chain'_cons']
          refine ⟨?_, hch⟩
          intro y hy
          have : y ∈ greedyOccs a as (off + (as.length + 1)) (rest.drop as.length) :=
            List.mem_of_mem_head? hy
          exact hlb y this
      · rw [greedyOccs_cons_neg off h]
        have hlen : rest.length ≤ n := by
          simp only [List.length_cons] at hs
          omega
        obtain ⟨hlb, hch⟩ := ih rest hlen (off + 1)
        refine ⟨fun o ho => ?_, hch⟩
        have := hlb o ho
        omega

/-- Every true occurrence is either reported or strictly overlaps an
earlier reported occurrence. -/
theorem greedyOccs_complete (a : Char) (as : List Char) :
    ∀ (n : Nat) (s : List Char), s.length ≤ n → ∀ off j,
      (a :: as).isPrefixOf (s.drop j) →
      (off + j) ∈ greedyOccs a as off s ∨
        ∃ p ∈ greedyOccs a as off s, p < off + j ∧ off + j < p + (as.length + 1) := by
  intro n
  induction n with
  | zero =>
    intro s hs off j hj
    have : s = [] := List.eq_nil_of_length_eq_zero (Nat.le_zero.mp hs)
    subst this
    simp only [List.drop_nil] at hj
    simp [List.isPrefixOf] at hj
  | succ n ih =>
    intro s hs off j hj
    match s with
    | [] =>
      simp only [List.drop_nil] at hj
      simp [List.isPrefixOf] at hj
    | c :: rest =>
      by_cases h : (a :: as).isPrefixOf (c :: rest)
      · rw [greedyOccs_cons_pos off h]
        have hlen : (rest.drop as.length).length ≤ n := by
          simp only [List.length_cons] at hs
          simp only [List.length_drop]
          omega
        rcases Nat.lt_or_ge j (as.length + 1) with hjk | hjk
        · rcases Nat.eq_zero_or_pos j with rfl | hjpos
          · left
            simp
          · right
            exact ⟨off, List.mem_cons_self off _, by omega, by omega⟩
        · have hdrop : (c :: rest).drop j = (rest.drop as.length).drop (j - (as.length + 1)) := by
            have h1 : j = (j - (as.length + 1)) + (as.length + 1) := by omega
            conv_lhs => rw [h1]
            exact drop_drop_cons c rest as.length (j - (as.length + 1))
          rw [hdrop] at hj
          have := ih (rest.drop as.length) hlen (off + (as.length + 1)) (j - (as.length + 1)) hj
          have harith : off + (as.length + 1) + (j - (as.length + 1)) = off + j := by omega
          rw [harith] at this
          rcases this with hmem | ⟨p, hp, hlt, hlt2⟩
          · left
            exact List.mem_cons_of_mem off hmem
          · right
            exact ⟨p, List.mem_cons_of_mem off hp, hlt, hlt2⟩
      · rw [greedyOccs_cons_neg off h]
        rcases Nat.eq_zero_or_pos j with rfl | hjpos
        · simp only [List.drop_zero] at hj
          exact absurd hj h
        · have hdrop : (c :: rest).drop j = rest.drop (j - 1) := by
            have h1 : j = (j - 1) + 1 := by omega
            conv_lhs => rw [h1]
            exact List.drop_succ_cons
          rw [hdrop] at hj
          have hlen : rest.length ≤ n := by
            simp only [List.length_cons] at hs
            omega
          have := ih rest hlen (off + 1) (j - 1) hj
          have harith : off + 1 + (j - 1) = off + j := by omega
          rw [harith] at this
          exact this

/-- C2 (counterexample): for text `T = "aaa"` and anchor `A = "aa"` the
true starting offsets are `[0, 1]`, but `find_substring` computes `[0]`:
the occurrence at offset 1 overlaps the match at offset 0 and is skipped
by the split-based scan, so the computed list does not equal the list of
all true offsets. -/
theorem c2_find_substring_cex :
    find_substring_pos 'a' ['a'] ("aaa".data) = [0] ∧
    occurrences ("aa".data) ("aaa".data) = [0, 1] ∧
    find_substring_pos 'a' ['a'] ("aaa".data) ≠ occurrences ("aa".data) ("aaa".data) := by
  refine ⟨by decide, by decide, by decide⟩

/-- C2 (amended): for every text `T` and non-empty anchor `A = a :: as`,
`find_substring` computes exactly the starting offsets of the leftmost
non-overlapping occurrences of `A` in `T`, in increasing order: every
computed offset has `A` as a prefix of `T` there (round trip), consecutive
computed offsets are at least `|A|` apart (strictly increasing, no
duplicates), and every true occurrence is either computed or strictly
overlaps a computed occurrence (only overlapping occurrences are missed,
none is duplicated). -/
theorem c2_find_substring_greedy (a : Char) (as T : List Char) :
    (∀ o ∈ find_substring_pos a as T, (a :: as).isPrefixOf (T.drop o)) ∧
    List.Chain' (fun x y => x + (as.length + 1) ≤ y) (find_substring_pos a as T) ∧
    (∀ j, (a :: as).isPrefixOf (T.drop j) →
      j ∈ find_substring_pos a as T ∨
        ∃ p ∈ find_substring_pos a as T, p < j ∧ j < p + (as.length + 1)) := by
  rw [find_substring_pos_eq_greedy]
  refine ⟨?_, ?_, ?_⟩
  · intro o ho
    obtain ⟨j, hj, hpre⟩ := greedyOccs_sound a as T.length T le_rfl 0 o ho
    have : o = j := by omega
    rw [this]
    exact hpre
  · exact (greedyOccs_lb_chain a as T.length T le_rfl 0).2
  · intro j hj
    have := greedyOccs_complete a as T.length T le_rfl 0 j hj
    simpa using this

/-- Witness for C2 (amended), at `T = "zab"`, `A = "ab"`: the hypothesis of
the completeness conjunct is discharged at the true occurrence `j = 1`. -/
theorem c2_find_substring_greedy_witness :
    (['a', 'b'].isPrefixOf (List.drop 1 ['z', 'a', 'b'])) ∧
    (1 ∈ find_substring_pos 'a' ['b'] ['z', 'a', 'b'] ∨
      ∃ p ∈ find_substring_pos 'a' ['b'] ['z', 'a', 'b'], p < 1 ∧ 1 < p + (['b'].length + 1)) :=
  ⟨by decide, (c2_find_substring_greedy 'a' ['b'] ['z', 'a', 'b']).2.2 1 (by decide)⟩

/-- Python replace for one explicit string: split on the old value and
re-join with the new one; for the empty old value Python interleaves the
new value between all characters. -/
def pyReplaceL (s old new : List Char) : List Char :=
  match old with
  | [] => new ++ s.flatMap (fun c => c :: new)
  | a :: as => List.intercalate new (pySplitNE a as s)

/-- Python replace on strings. -/
def pyReplace (s old new : String) : String :=
  String.mk (pyReplaceL s.data old.data new.data)

/-- The page-indexed URL loop of `utils.scrape_link_manu_wi_chromium`:
for each page index `n` in `[0, num_pages)` the navigated URL is the
template with every occurrence of the page identifier replaced by the
identifier immediately followed by the page number
(`n * multiplier` when `multiplier > 1`, else `n + 1`). -/
def scrape_link_manu (base_url page_identifier : String) (num_pages multiplier : Nat) :
    List (Nat × String) :=
  (List.range num_pages).map (fun n =>
    (n, pyReplace base_url page_identifier
      (page_identifier ++ toString (if 1 < multiplier then n * multiplier else n + 1))))

/-- The substitution the spec's words describe for C3: the anchor token is
replaced by the page number itself (the token is consumed, not kept). -/
def spec_substituted_url (base_url page_identifier : String) (k : Nat) : String :=
  pyReplace base_url page_identifier (toString k)

/-- C3 (counterexample): with URL template `"https://x.example/jobs?page="`,
identifier `"page="`, `multiplier = 1`, page index `n = 0`, the code
navigates to `".../jobs?page=1"` — the identifier is kept and the page
number appended after it — whereas substituting the anchor token *with*
`n + 1`, as the claim states, yields `".../jobs?1"`. -/
theorem c3_pagination_cex :
    scrape_link_manu "https://x.example/jobs?page=" "page=" 1 1 =
      [(0, "https://x.example/jobs?page=1")] ∧
    spec_substituted_url "https://x.example/jobs?page=" "page=" (0 + 1) =
      "https://x.example/jobs?1" ∧
    ("https://x.example/jobs?page=1" : String) ≠ "https://x.example/jobs?1" := by
  refine ⟨by decide, by decide, by decide⟩

/-- C3 (amended): for every paginated Source Descriptor and every page
index `n` in `[0, num_pages)`, the URL fetched for page `n` is the URL
template with every occurrence of the pagination anchor token replaced by
the token immediately followed by the page number — `n + 1` when the
multiplier is 1 (or less), and `n * multiplier` when the multiplier
exceeds 1. -/
theorem c3_pagination_url (base_url page_identifier : String) (num_pages multiplier n : Nat)
    (hn : n < num_pages) :
    (scrape_link_manu base_url page_identifier num_pages multiplier)[n]? =
      some (n, pyReplace base_url page_identifier
        (page_identifier ++ toString (if 1 < multiplier then n * multiplier else n + 1))) := by
  simp [scrape_link_manu, List.getElem?_range, hn]

/-- Witness for C3 (amended) at the template `".../jobs?p=PG"`,
identifier `"PG"`, 3 pages, multiplier 10, page index 2. -/
theorem c3_pagination_url_witness :
    (scrape_link_manu "https://x.example/jobs?p=PG" "PG" 3 10)[2]? =
      some (2, "https://x.example/jobs?p=PG20") :=
  (c3_pagination_url "https://x.example/jobs?p=PG" "PG" 3 10 2 (by decide)).trans (by decide)

/-- `constants.EXTRACTOR_CHECK`: per-source anchor tokens. -/
def EXTRACTOR_CHECK : List (String × String) :=
  [("apple", "/en-us/details/"),
   ("amazon", "/en/jobs/2949643/"),
   ("adobe", "https://careers.adobe.com/us/en/job/"),
   ("airbnb", "https://careers.airbnb.com/positions/"),
   ("google", "jobs/results/"),
   ("meta", "/jobs/"),
   ("notion", "https://job-boards.greenhouse.io/notion/jobs/"),
   ("lyft", "https://app.careerpuck.com/job-board/lyft/job/")]

/-- `constants.EXTRACTOR_BUFFER`. -/
def EXTRACTOR_BUFFER : Nat := 1000

/-- `constants.EXTRACTOR_PROMPT` up to the placeholder. -/
def EXTRACTOR_PROMPT_PRE : String :=
  "### Instruction:\nI am providing you with an HTML. I want you to extract Job Title, Job Location, Job ID and Job Link in a JSON format. I want you to respond only with a JSON, no descriptive text. There are exactly 10 Job Title, Job Location, Job ID and Job Link that you have to extract from the provided HTML.\n\nAgain, only respond with a JSON and no desciptive text. If you do not spot job links in the HTML provided then just return an empty JSON.\nHere is the HTML I want to extract Job Title, Job Location, Job ID and Job Link from,\n\n"

/-- `constants.EXTRACTOR_PROMPT` after the placeholder. -/
def EXTRACTOR_PROMPT_POST : String := "\n"

/-- `career_page_html_extractor.return_prompt`: the placeholder is filled
with the HTML window. -/
def return_prompt (html_content : String) : String :=
  EXTRACTOR_PROMPT_PRE ++ html_content ++ EXTRACTOR_PROMPT_POST

/-- One entry of a company directory on disk: either a flat HTML artifact
or a sub-collection directory of named artifacts. -/
inductive DirEntry where
  | file (name : String) (content : String)
  | dir (name : String) (files : List (String × String))
deriving DecidableEq, Repr

/-- One company directory under the split (scraped) root. -/
structure CompanyDir where
  name : String
  entries : List DirEntry
deriving DecidableEq, Repr

/-- One artifact the Resumable Batch Driver actually processed, with the
(prompt, response) pairs of the model invocations it persisted. -/
structure ProcessedArtifact where
  company : String
  data_software : String
  html_file : String
  frags : List (String × String)
deriving DecidableEq, Repr

/-- Lexicographic order on character lists (Python string order for the
ASCII names appearing here). -/
def charListLt (x y : List Char) : Bool :=
  match x, y with
  | [], [] => false
  | [], _ :: _ => true
  | _ :: _, [] => false
  | a :: xs, b :: ys => if a < b then true else if b < a then false else charListLt xs ys

def strLtB (x y : String) : Bool := charListLt x.data y.data

def insertFile (p : String × String) (l : List (String × String)) : List (String × String) :=
  match l with
  | [] => [p]
  | q :: qs => if strLtB p.1 q.1 then p :: q :: qs else q :: insertFile p qs

/-- `data_software_html_paths.sort()`. -/
def sortFiles (l : List (String × String)) : List (String × String) :=
  match l with
  | [] => []
  | p :: ps => insertFile p (sortFiles ps)

def insertCompany (c : CompanyDir) (l : List CompanyDir) : List CompanyDir :=
  match l with
  | [] => [c]
  | d :: ds => if strLtB c.name d.name then c :: d :: ds else d :: insertCompany c ds

/-- `company_list.sort()`. -/
def sortCompanies (l : List CompanyDir) : List CompanyDir :=
  match l with
  | [] => []
  | c :: cs => insertCompany c (sortCompanies cs)

/-- The per-window loop of `career_page_html_extractor.call_make_predictions`:
slice a buffer-bounded window around each anchor offset, build the prompt,
silently skip requests of 100000 characters or more, and otherwise invoke
the model (whose exceptions propagate — the surrounding `try:` is commented
out in the source) and persist the raw response. -/
def runWindows (model : String → Except PyErr String) (content : String)
    (positions : List Nat) : Except PyErr (List (String × String)) :=
  match positions with
  | [] => .ok []
  | pos :: rest =>
    let a := pos - EXTRACTOR_BUFFER
    let b := min content.data.length (pos + EXTRACTOR_BUFFER)
    let window := String.mk ((content.data.drop a).take (b - a))
    let prompt := return_prompt window
    if prompt.length < 100000 then
      match model prompt with
      | .error e => .error e
      | .ok resp =>
        match runWindows model content rest with
        | .error e => .error e
        | .ok more => .ok ((prompt, resp) :: more)
    else runWindows model content rest

/-- `career_page_html_extractor.call_make_predictions` for one artifact:
if the company has an anchor token that is absent from the content the
artifact is skipped; if the company has no anchor token at all, the
unconditional table index `EXTRACTOR_CHECK[company]` raises `KeyError`;
otherwise each anchor occurrence yields a bounded window request. -/
def call_make_predictions (model : String → Except PyErr String)
    (company content : String) : Except PyErr (List (String × String)) :=
  match (EXTRACTOR_CHECK.lookup company) with
  | none => .error .keyError
  | some tok =>
    if strContains content tok then
      match tok.data with
      | [] => .error .valueError
      | a :: as => runWindows model content (find_substring_pos a as content.data)
    else .ok []

def runFiles (model : String → Except PyErr String) (company dname : String)
    (files : List (String × String)) : Except PyErr (List ProcessedArtifact) :=
  match files with
  | [] => .ok []
  | fc :: rest =>
    match call_make_predictions model company fc.2 with
    | .error e => .error e
    | .ok frags =>
      match runFiles model company dname rest with
      | .error e => .error e
      | .ok more => .ok (⟨company, dname, fc.1, frags⟩ :: more)

/-- One `data_software` entry of `produce_predicts`: a nested directory is
enumerated in sorted order, a flat file is processed with an empty
sub-collection name. -/
def processEntry (model : String → Except PyErr String) (company : String)
    (e : DirEntry) : Except PyErr (List ProcessedArtifact) :=
  match e with
  | .file fname content =>
    match call_make_predictions model company content with
    | .error er => .error er
    | .ok frags => .ok [⟨company, "", fname, frags⟩]
  | .dir dname files => runFiles model company dname (sortFiles files)

def runEntries (model : String → Except PyErr String) (company : String)
    (entries : List DirEntry) : Except PyErr (List ProcessedArtifact) :=
  match entries with
  | [] => .ok []
  | e :: rest =>
    match processEntry model company e with
    | .error er => .error er
    | .ok items =>
      match runEntries model company rest with
      | .error er => .error er
      | .ok more => .ok (items ++ more)

def runCompanies (model : String → Except PyErr String) (extracted : List String)
    (l : List CompanyDir) : Except PyErr (List ProcessedArtifact) :=
  match l with
  | [] => .ok []
  | cd :: rest =>
    if cd.name ∈ extracted then runCompanies model extracted rest
    else
      match runEntries model cd.name cd.entries with
      | .error e => .error e
      | .ok items =>
        match runCompanies model extracted rest with
        | .error e => .error e
        | .ok more => .ok (items ++ more)

/-- `career_page_html_extractor.produce_predicts`: sort the company list,
skip every company already listed under the extraction output root at the
start of the run, and process every artifact of the remaining companies in
order; any per-artifact exception propagates and aborts the whole run
(there is no try/except around `call_make_predictions`). -/
def produce_predicts (model : String → Except PyErr String)
    (split : List CompanyDir) (extractedAtStart : List String) :
    Except PyErr (List ProcessedArtifact) :=
  runCompanies model extractedAtStart (sortCompanies split)

/-- The artifacts one directory entry contributes, as the driver
enumerates them: (sub-collection name, file name, content). -/
def entryArtifacts (e : DirEntry) : List (String × String × String) :=
  match e with
  | .file fname content => [("", fname, content)]
  | .dir dname files => (sortFiles files).map (fun fc => (dname, fc.1, fc.2))

/-- The artifacts of a company directory as the driver enumerates them. -/
def artifactsOf (cd : CompanyDir) : List (String × String × String) :=
  cd.entries.flatMap entryArtifacts

theorem mem_insertFile (p q : String × String) (l : List (String × String)) :
    q ∈ insertFile p l ↔ q = p ∨ q ∈ l := by
  induction l with
  | nil => simp [insertFile]
  | cons r rs ih =>
    rw [insertFile]
    by_cases h : strLtB p.1 r.1
    · simp [h]
    · rw [if_neg h]
      simp only [List.mem_cons, ih]
      tauto

theorem mem_sortFiles (q : String × String) (l : List (String × String)) :
    q ∈ sortFiles l ↔ q ∈ l := by
  induction l with
  | nil => simp [sortFiles]
  | cons r rs ih =>
    rw [sortFiles, mem_insertFile]
    simp [ih]

theorem mem_insertCompany (p q : CompanyDir) (l : List CompanyDir) :
    q ∈ insertCompany p l ↔ q = p ∨ q ∈ l := by
  induction l with
  | nil => simp [insertCompany]
  | cons r rs ih =>
    rw [insertCompany]
    by_cases h : strLtB p.name r.name
    · simp [h]
    · rw [if_neg h]
      simp only [List.mem_cons, ih]
      tauto

theorem mem_sortCompanies (q : CompanyDir) (l : List CompanyDir) :
    q ∈ sortCompanies l ↔ q ∈ l := by
  induction l with
  | nil => simp [sortCompanies]
  | cons r rs ih =>
    rw [sortCompanies, mem_insertCompany]
    simp [ih]

theorem runFiles_ok_company {model : String → Except PyErr String}
    {company dname : String} {files : List (String × String)}
    {items : List ProcessedArtifact}
    (h : runFiles model company dname files = .ok items) :
    ∀ it ∈ items, it.company = company := by
  induction files generalizing items with
  | nil =>
    rw [runFiles] at h
    simp only [Except.ok.injEq] at h
    subst h
    simp
  | cons fc rest ih =>
    rw [runFiles] at h
    cases hc : call_make_predictions model company fc.2 with
    | error e => rw [hc] at h; simp at h
    | ok frags =>
      rw [hc] at h
      cases hr : runFiles model company dname rest with
      | error e => rw [hr] at h; simp at h
      | ok more =>
        rw [hr] at h
        simp only [Except.ok.injEq] at h
        subst h
        intro it hit
        rcases List.mem_cons.mp hit with rfl | hit'
        · rfl
        · exact ih hr it hit'

theorem runFiles_ok_forall {model : String → Except PyErr String}
    {company dname : String} {files : List (String × String)}
    {items : List ProcessedArtifact}
    (h : runFiles model company dname files = .ok items) :
    ∀ fc ∈ files, ∃ frags, call_make_predictions model company fc.2 = .ok frags ∧
      (⟨company, dname, fc.1, frags⟩ : ProcessedArtifact) ∈ items := by
  induction files generalizing items with
  | nil =>
    intro fc hfc
    exact absurd hfc (List.not_mem_nil fc)
  | cons fc0 rest ih =>
    rw [runFiles] at h
    cases hc : call_make_predictions model company fc0.2 with
    | error e => rw [hc] at h; simp at h
    | ok frags0 =>
      rw [hc] at h
      cases hr : runFiles model company dname rest with
      | error e => rw [hr] at h; simp at h
      | ok more =>
        rw [hr] at h
        simp only [Except.ok.injEq] at h
        subst h
        intro fc hfc
        rcases List.mem_cons.mp hfc with rfl | hfc'
        · exact ⟨frags0, hc, List.mem_cons_self _ _⟩
        · obtain ⟨frags, hcall, hmem⟩ := ih hr fc hfc'
          exact ⟨frags, hcall, List.mem_cons_of_mem _ hmem⟩

theorem processEntry_ok_company {model : String → Except PyErr String}
    {company : String} {e : DirEntry} {items : List ProcessedArtifact}
    (h : processEntry model company e = .ok items) :
    ∀ it ∈ items, it.company = company := by
  match e with
  | .file fname content =>
    rw [processEntry] at h
    cases hc : call_make_predictions model company content with
    | error er => rw [hc] at h; simp at h
    | ok frags =>
      rw [hc] at h
      simp only [Except.ok.injEq] at h
      subst h
      simp
  | .dir dname files =>
    rw [processEntry] at h
    exact runFiles_ok_company h

theorem processEntry_ok_forall {model : String → Except PyErr String}
    {company : String} {e : DirEntry} {items : List ProcessedArtifact}
    (h : processEntry model company e = .ok items) :
    ∀ a ∈ entryArtifacts e, ∃ frags,
      call_make_predictions model company a.2.2 = .ok frags ∧
      (⟨company, a.1, a.2.1, frags⟩ : ProcessedArtifact) ∈ items := by
  match e with
  | .file fname content =>
    rw [processEntry] at h
    cases hc : call_make_predictions model company content with
    | error er => rw [hc] at h; simp at h
    | ok frags =>
      rw [hc] at h
      simp only [Except.ok.injEq] at h
      subst h
      intro a ha
      simp only [entryArtifacts, List.mem_singleton] at ha
      subst ha
      exact ⟨frags, hc, List.mem_singleton_self _⟩
  | .dir dname files =>
    rw [processEntry] at h
    intro a ha
    simp only [entryArtifacts, List.mem_map] at ha
    obtain ⟨fc, hfc, rfl⟩ := ha
    exact runFiles_ok_forall h fc hfc

theorem runEntries_ok_company {model : String → Except PyErr String}
    {company : String} {entries : List DirEntry} {items : List ProcessedArtifact}
    (h : runEntries model company entries = .ok items) :
    ∀ it ∈ items, it.company = company := by
  induction entries generalizing items with
  | nil =>
    rw [runEntries] at h
    simp only [Except.ok.injEq] at h
    subst h
    simp
  | cons e rest ih =>
    rw [runEntries] at h
    cases hc : processEntry model company e with
    | error er => rw [hc] at h; simp at h
    | ok items0 =>
      rw [hc] at h
      cases hr : runEntries model company rest with
      | error er => rw [hr] at h; simp at h
      | ok more =>
        rw [hr] at h
        simp only [Except.ok.injEq] at h
        subst h
        intro it hit
        rcases List.mem_append.mp hit with hit' | hit'
        · exact processEntry_ok_company hc it hit'
        · exact ih hr it hit'

theorem runEntries_ok_forall {model : String → Except PyErr String}
    {company : String} {entries : List DirEntry} {items : List ProcessedArtifact}
    (h : runEntries model company entries = .ok items) :
    ∀ e ∈ entries, ∀ a ∈ entryArtifacts e, ∃ frags,
      call_make_predictions model company a.2.2 = .ok frags ∧
      (⟨company, a.1, a.2.1, frags⟩ : ProcessedArtifact) ∈ items := by
  induction entries generalizing items with
  | nil =>
    intro e he
    exact absurd he (List.not_mem_nil e)
  | cons e0 rest ih =>
    rw [runEntries] at h
    cases hc : processEntry model company e0 with
    | error er => rw [hc] at h; simp at h
    | ok items0 =>
      rw [hc] at h
      cases hr : runEntries model company rest with
      | error er => rw [hr] at h; simp at h
      | ok more =>
        rw [hr] at h
        simp only [Except.ok.injEq] at h
        subst h
        intro e he a ha
        rcases List.mem_cons.mp he with rfl | he'
        · obtain ⟨frags, hcall, hmem⟩ := processEntry_ok_forall hc a ha
          exact ⟨frags, hcall, List.mem_append_left _ hmem⟩
        · obtain ⟨frags, hcall, hmem⟩ := ih hr e he' a ha
          exact ⟨frags, hcall, List.mem_append_right _ hmem⟩

theorem runCompanies_ok_notin {model : String → Except PyErr String}
    {extracted : List String} {l : List CompanyDir} {out : List ProcessedArtifact}
    (h : runCompanies model extracted l = .ok out) :
    ∀ it ∈ out, it.company ∉ extracted := by
  induction l generalizing out with
  | nil =>
    rw [runCompanies] at h
    simp only [Except.ok.injEq] at h
    subst h
    simp
  | cons cd rest ih =>
    rw [runCompanies] at h
    by_cases hmem : cd.name ∈ extracted
    · rw [if_pos hmem] at h
      exact ih h
    · rw [if_neg hmem] at h
      cases hc : runEntries model cd.name cd.entries with
      | error e => rw [hc] at h; simp at h
      | ok items =>
        rw [hc] at h
        cases hr : runCompanies model extracted rest with
        | error e => rw [hr] at h; simp at h
        | ok more =>
          rw [hr] at h
          simp only [Except.ok.injEq] at h
          subst h
          intro it hit
          rcases List.mem_append.mp hit with hit' | hit'
          · rw [runEntries_ok_company hc it hit']
            exact hmem
          · exact ih hr it hit'

theorem runCompanies_ok_forall {model : String → Except PyErr String}
    {extracted : List String} {l : List CompanyDir} {out : List ProcessedArtifact}
    (h : runCompanies model extracted l = .ok out) :
    ∀ cd ∈ l, cd.name ∉ extracted → ∀ a ∈ artifactsOf cd, ∃ frags,
      call_make_predictions model cd.name a.2.2 = .ok frags ∧
      (⟨cd.name, a.1, a.2.1, frags⟩ : ProcessedArtifact) ∈ out := by
  induction l generalizing out with
  | nil =>
    intro cd hcd
    exact absurd hcd (List.not_mem_nil cd)
  | cons cd0 rest ih =>
    rw [runCompanies] at h
    by_cases hmem : cd0.name ∈ extracted
    · rw [if_pos hmem] at h
      intro cd hcd hnotin a ha
      rcases List.mem_cons.mp hcd with rfl | hcd'
      · exact absurd hmem hnotin
      · exact ih h cd hcd' hnotin a ha
    · rw [if_neg hmem] at h
      cases hc : runEntries model cd0.name cd0.entries with
      | error e => rw [hc] at h; simp at h
      | ok items =>
        rw [hc] at h
        cases hr : runCompanies model extracted rest with
        | error e => rw [hr] at h; simp at h
        | ok more =>
          rw [hr] at h
          simp only [Except.ok.injEq] at h
          subst h
          intro cd hcd hnotin a ha
          rcases List.mem_cons.mp hcd with rfl | hcd'
          · simp only [artifactsOf, List.mem_flatMap] at ha
            obtain ⟨e, he, ha'⟩ := ha
            obtain ⟨frags, hcall, hmemit⟩ := runEntries_ok_forall hc e he a ha'
            exact ⟨frags, hcall, List.mem_append_left _ hmemit⟩
          · obtain ⟨frags, hcall, hmemit⟩ := ih hr cd hcd' hnotin a ha
            exact ⟨frags, hcall, List.mem_append_right _ hmemit⟩

/-- C8: for every source that declares an anchor token and every HTML
artifact whose content contains no occurrence of that token,
`call_make_predictions` produces no request and no output fragment: it
returns an empty invocation log. -/
theorem c8_token_absent_skips (model : String → Except PyErr String)
    (company tok content : String)
    (hlook : EXTRACTOR_CHECK.lookup company = some tok)
    (habs : strContains content tok = false) :
    call_make_predictions model company content = .ok [] := by
  rw [call_make_predictions, hlook]
  simp [habs]

/-- Witness for C8: source `"apple"` declares token `"/en-us/details/"`,
which does not occur in `"<html>no jobs here</html>"`. -/
theorem c8_token_absent_skips_witness :
    call_make_predictions (fun _ => .ok "resp") "apple" "<html>no jobs here</html>" = .ok [] :=
  c8_token_absent_skips (fun _ => .ok "resp") "apple" "/en-us/details/"
    "<html>no jobs here</html>" (by rfl) (by decide)

/-- C9: an artifact of a company absent from `EXTRACTOR_CHECK` raises an
uncaught `KeyError` (the pre-filter `company in EXTRACTOR_CHECK` only
suppresses processing when the company IS in the table; the offset scan
then indexes the table unconditionally); consequently a successful driver
run requires every processed source with an artifact to appear in the
table. -/
theorem c9_missing_token_keyerror :
    (∀ (model : String → Except PyErr String) (company content : String),
      EXTRACTOR_CHECK.lookup company = none →
      call_make_predictions model company content = .error .keyError) ∧
    (∀ (model : String → Except PyErr String) (split : List CompanyDir)
      (extracted : List String) (out : List ProcessedArtifact),
      produce_predicts model split extracted = .ok out →
      ∀ cd ∈ split, cd.name ∉ extracted → ∀ a ∈ artifactsOf cd,
        (EXTRACTOR_CHECK.lookup cd.name).isSome) := by
  constructor
  · intro model company content hnone
    rw [call_make_predictions, hnone]
  · intro model split extracted out h cd hcd hnotin a ha
    have hcd' : cd ∈ sortCompanies split := (mem_sortCompanies cd split).mpr hcd
    obtain ⟨frags, hcall, _⟩ := runCompanies_ok_forall h cd hcd' hnotin a ha
    cases hlook : EXTRACTOR_CHECK.lookup cd.name with
    | none =>
      rw [call_make_predictions, hlook] at hcall
      exact absurd hcall (by simp)
    | some tok => rfl

/-- Witness for C9: company `"netflix"` has no anchor token, so its
artifact raises `KeyError`. -/
theorem c9_missing_token_keyerror_witness :
    call_make_predictions (fun _ => .ok "resp") "netflix" "<html></html>" = .error .keyError :=
  c9_missing_token_keyerror.1 (fun _ => .ok "resp") "netflix" "<html></html>" (by rfl)

/-- C4: on a successful run, every processed artifact belongs to a source
absent from the extraction output root at the start of the run (sources
already present are skipped wholesale, with no model invocation), and for
every source not present, every artifact of that source is processed and
its fragments appear in the output. -/
theorem c4_resumable_skip (model : String → Except PyErr String)
    (split : List CompanyDir) (extracted : List String) (out : List ProcessedArtifact)
    (h : produce_predicts model split extracted = .ok out) :
    (∀ it ∈ out, it.company ∉ extracted) ∧
    (∀ cd ∈ split, cd.name ∉ extracted → ∀ a ∈ artifactsOf cd, ∃ frags,
      call_make_predictions model cd.name a.2.2 = .ok frags ∧
      (⟨cd.name, a.1, a.2.1, frags⟩ : ProcessedArtifact) ∈ out) := by
  constructor
  · exact runCompanies_ok_notin h
  · intro cd hcd hnotin a ha
    exact runCompanies_ok_forall h cd ((mem_sortCompanies cd split).mpr hcd) hnotin a ha

set_option maxRecDepth 10000 in
/-- Witness for C4: with `"meta"` already extracted, a run over
`["apple", "meta"]` yields output only for `"apple"`, and the `"apple"`
artifact is processed. -/
theorem c4_resumable_skip_witness :
    ((⟨"apple", "", "f.txt", []⟩ : ProcessedArtifact).company ∉ (["meta"] : List String)) ∧
    ∃ frags, call_make_predictions (fun _ => .ok "resp") "apple" "hello" = .ok frags ∧
      (⟨"apple", "", "f.txt", frags⟩ : ProcessedArtifact) ∈
        [(⟨"apple", "", "f.txt", []⟩ : ProcessedArtifact)] := by
  have h := c4_resumable_skip (fun _ => .ok "resp")
    [⟨"apple", [.file "f.txt" "hello"]⟩, ⟨"meta", [.file "g.txt" "x"]⟩]
    ["meta"] [⟨"apple", "", "f.txt", []⟩] (by rfl)
  exact ⟨h.1 ⟨"apple", "", "f.txt", []⟩ (by decide),
    h.2 ⟨"apple", [.file "f.txt" "hello"]⟩ (by decide) (by decide)
      ("", "f.txt", "hello") (by decide)⟩

set_option maxRecDepth 100000 in
/-- C1 (code defect): the `try:` guarding the model invocation in
`call_make_predictions` is commented out, so a per-artifact model failure
propagates out of `produce_predicts` and aborts the whole batch instead of
being isolated.  At the input below the model raises on the first artifact
of `"meta"`; the run returns that error, and neither the second `"meta"`
artifact nor the `"apple"` source is processed — the same tree under a
non-raising model yields all three artifacts. -/
theorem c1_per_artifact_failure_aborts :
    produce_predicts (fun _ => .error .modelError)
      [⟨"meta", [.dir "data" [("0.txt", "a/jobs/b"), ("1.txt", "c/jobs/d")]]⟩,
       ⟨"apple", [.file "f.txt" "hello"]⟩] [] = .error .modelError ∧
    (produce_predicts (fun _ => .ok "resp")
      [⟨"meta", [.dir "data" [("0.txt", "a/jobs/b"), ("1.txt", "c/jobs/d")]]⟩,
       ⟨"apple", [.file "f.txt" "hello"]⟩] []).map
        (List.map (fun it => (it.company, it.html_file))) =
      .ok [("apple", "f.txt"), ("meta", "0.txt"), ("meta", "1.txt")] :=
  ⟨rfl, rfl⟩

/-- `constants.LINK_PREPEND`: per-company base-URL prefixes for link repair. -/
def LINK_PREPEND : List (String × String) :=
  [("amazon", "https://www.amazon.jobs/"),
   ("apple", "https://jobs.apple.com/"),
   ("google", "https://www.google.com/about/careers/applications/"),
   ("meta", "https://www.metacareers.com/")]

/-- `constants.UNITED_STATES_LIST`: U.S.-indicating keywords. -/
def UNITED_STATES_LIST : List String :=
  ["united", "states", "america", "usa", "us"]

/-- `constants.COUNTRY_SET`: recognized non-U.S. country names (iterated as
a Python set; the short-circuiting membership test is order-independent). -/
def COUNTRY_SET : List String :=
  ["afghanistan",
   "albania",
   "algeria",
   "andorra",
   "angola",
   "antigua and barbuda",
   "argentina",
   "armenia",
   "australia",
   "austria",
   "azerbaijan",
   "bahrain",
   "bangladesh",
   "barbados",
   "belarus",
   "belgium",
   "belize",
   "benin",
   "bhutan",
   "bolivia",
   "bosnia and herzegovina",
   "botswana",
   "brazil",
   "brunei",
   "bulgaria",
   "burkina faso",
   "burundi",
   "cabo verde",
   "cambodia",
   "cameroon",
   "canada",
   "central african republic",
   "chad",
   "chile",
   "china",
   "colombia",
   "comoros",
   "congo, democratic republic of the",
   "congo, republic of the",
   "costa rica",
   "croatia",
   "cuba",
   "cyprus",
   "czech republic",
   "côte d’ivoire",
   "denmark",
   "djibouti",
   "dominica",
   "dominican republic",
   "east timor (timor-leste)",
   "ecuador",
   "egypt",
   "el salvador",
   "equatorial guinea",
   "eritrea",
   "estonia",
   "eswatini",
   "ethiopia",
   "fiji",
   "finland",
   "france",
   "gabon",
   "georgia",
   "germany",
   "ghana",
   "greece",
   "grenada",
   "guatemala",
   "guinea",
   "guinea-bissau",
   "guyana",
   "haiti",
   "honduras",
   "hungary",
   "iceland",
   "india",
   "indonesia",
   "iran",
   "iraq",
   "ireland",
   "israel",
   "italy",
   "jamaica",
   "japan",
   "jordan",
   "kazakhstan",
   "kenya",
   "kiribati",
   "korea, north",
   "korea, south",
   "kosovo",
   "kuwait",
   "kyrgyzstan",
   "laos",
   "latvia",
   "lebanon",
   "lesotho",
   "liberia",
   "libya",
   "liechtenstein",
   "lithuania",
   "luxembourg",
   "madagascar",
   "malawi",
   "malaysia",
   "maldives",
   "mali",
   "malta",
   "marshall islands",
   "mauritania",
   "mauritius",
   "mexico",
   "micronesia, federated states of",
   "moldova",
   "monaco",
   "mongolia",
   "montenegro",
   "morocco",
   "mozambique",
   "myanmar (burma)",
   "namibia",
   "nauru",
   "nepal",
   "netherlands",
   "new zealand",
   "nicaragua",
   "niger",
   "nigeria",
   "north macedonia",
   "norway",
   "oman",
   "pakistan",
   "palau",
   "panama",
   "papua new guinea",
   "paraguay",
   "peru",
   "philippines",
   "poland",
   "portugal",
   "qatar",
   "romania",
   "russia",
   "rwanda",
   "saint kitts and nevis",
   "saint lucia",
   "saint vincent and the grenadines",
   "samoa",
   "san marino",
   "sao tome and principe",
   "saudi arabia",
   "senegal",
   "serbia",
   "seychelles",
   "sierra leone",
   "singapore",
   "slovakia",
   "slovenia",
   "solomon islands",
   "somalia",
   "south africa",
   "spain",
   "sri lanka",
   "sudan",
   "sudan, south",
   "suriname",
   "sweden",
   "switzerland",
   "syria",
   "taiwan",
   "tajikistan",
   "tanzania",
   "thailand",
   "the bahamas",
   "the gambia",
   "togo",
   "tonga",
   "trinidad and tobago",
   "tunisia",
   "turkey",
   "turkmenistan",
   "tuvalu",
   "uganda",
   "ukraine",
   "united arab emirates",
   "united kingdom",
   "uruguay",
   "uzbekistan",
   "vanuatu",
   "vatican city",
   "venezuela",
   "vietnam",
   "yemen",
   "zambia",
   "zimbabwe"]

/-- One row of the consolidation master table after schema normalization:
the company tag is always set by the pipeline; the four extracted fields
are optional because a parsed fragment may lack any of the keys (pandas
then stores a non-string missing value). -/
structure JobRow where
  company_name : String
  job_title : Option String
  location : Option String
  job_id : Option String
  job_link : Option String
deriving DecidableEq, Repr

/-- Step `master_df[~pd.isna(master_df["Job Link"])]` of
`post_extraction_cleaner.process_master_df`: drop rows with missing link. -/
def linkFilter (rows : List JobRow) : List JobRow :=
  rows.filter (fun r => r.job_link.isSome)

/-- `drop_duplicates()` (pandas keeps the first of equal rows). -/
def dropDupFirst (seen : List JobRow) (rows : List JobRow) : List JobRow :=
  match rows with
  | [] => []
  | r :: rest => if r ∈ seen then dropDupFirst seen rest else r :: dropDupFirst (r :: seen) rest

/-- The link-repair loop of `post_extraction_cleaner.process_master_df`:
a row whose link does not contain the substring `"http"` gets the
company's configured prefix prepended, or is marked for deletion when the
company has no prefix; rows with a `None` link or a link containing
`"http"` pass through unchanged. -/
def process_links (rows : List JobRow) : List JobRow :=
  match rows with
  | [] => []
  | r :: rest =>
    match r.job_link with
    | none => r :: process_links rest
    | some l =>
      if strContains l "http" then r :: process_links rest
      else
        match LINK_PREPEND.lookup r.company_name with
        | some p => { r with job_link := some (p ++ l) } :: process_links rest
        | none => process_links rest

/-- The per-row repair outcome the amended C6 describes (kept unchanged,
prefixed, or dropped). -/
def repairRow (r : JobRow) : Option JobRow :=
  match r.job_link with
  | none => some r
  | some l =>
    if strContains l "http" then some r
    else
      match LINK_PREPEND.lookup r.company_name with
      | some p => some { r with job_link := some (p ++ l) }
      | none => none

/-- The spec's notion of a link that "already has a scheme"
(a recognizable URL scheme at the start of the link). -/
def hasRecognizableScheme (l : String) : Bool :=
  "http://".data.isPrefixOf l.data || "https://".data.isPrefixOf l.data

/-- The topical keep-predicate of
`post_extraction_cleaner.remove_old_n_irrelevant_roles`:
`~job_title.str.contains('technician', case=False, na=False)`. -/
def keepTitleB (r : JobRow) : Bool :=
  match r.job_title with
  | none => true
  | some t => ! strContains (pyLower t) "technician"

/-- The historical-dedup filter of `remove_old_n_irrelevant_roles`: when a
job database exists, drop rows whose link is already in it. -/
def histFilter (store : Option (List JobRow)) (rows : List JobRow) : List JobRow :=
  match store with
  | none => rows
  | some db => rows.filter (fun r => ! db.any (fun d => decide (d.job_link = r.job_link)))

/-- One mask entry of `location_check_helper` inside `drop_non_us_jobs`:
iterating the country set evaluates `row["location"].lower()`, raising
`AttributeError` on a missing location (unless the country list is empty,
in which case the loop body never runs); otherwise the row is kept exactly
when no country name occurs in the lowercased location. -/
def locCheckRow (countries : List String) (r : JobRow) : Except PyErr Bool :=
  match countries, r.location with
  | [], _ => .ok true
  | _ :: _, none => .error .attributeError
  | cs, some loc => .ok (! cs.any (fun ctry => strContains (pyLower loc) ctry))

def mapE {α β : Type} (f : α → Except PyErr β) (l : List α) : Except PyErr (List β) :=
  match l with
  | [] => .ok []
  | x :: xs =>
    match f x with
    | .error e => .error e
    | .ok y =>
      match mapE f xs with
      | .error e => .error e
      | .ok ys => .ok (y :: ys)

/-- `master_df[location_mask]`. -/
def keepMasked (rows : List JobRow) (mask : List Bool) : List JobRow :=
  match rows, mask with
  | [], _ => []
  | _, [] => []
  | r :: rs, b :: bs => if b then r :: keepMasked rs bs else keepMasked rs bs

/-- `post_extraction_cleaner.drop_non_us_jobs`: build the per-row mask with
`location_check_helper`, then keep the masked rows. -/
def drop_non_us_jobs (countries : List String) (rows : List JobRow) :
    Except PyErr (List JobRow) :=
  match mapE (locCheckRow countries) rows with
  | .error e => .error e
  | .ok mask => .ok (keepMasked rows mask)

/-- One row of `post_extraction_cleaner.clean_location_field`: iterating
the keyword list evaluates `r["location"].lower()`, raising
`AttributeError` on a missing location (unless the keyword list is empty,
in which case `change` stays True and the location is blanked untouched);
otherwise the location is blanked exactly when no U.S. keyword occurs in it. -/
def cleanRow (usList : List String) (r : JobRow) : Except PyErr JobRow :=
  match usList, r.location with
  | [], _ => .ok { r with location := some "" }
  | _ :: _, none => .error .attributeError
  | us, some loc =>
    .ok (if us.any (fun k => strContains (pyLower loc) k) then r
         else { r with location := some "" })

/-- `post_extraction_cleaner.clean_location_field`. -/
def clean_location_field (usList : List String) (rows : List JobRow) :
    Except PyErr (List JobRow) :=
  mapE (cleanRow usList) rows

/-- Whether `drop_non_us_jobs` drops the row: some recognized country name
occurs in the lowercased location. -/
def hasCountryB (countries : List String) (r : JobRow) : Bool :=
  match r.location with
  | none => false
  | some loc => countries.any (fun ctry => strContains (pyLower loc) ctry)

/-- Whether `clean_location_field` preserves the location: some U.S.
keyword occurs in the lowercased location. -/
def hasUSKeywordB (usList : List String) (r : JobRow) : Bool :=
  match r.location with
  | none => false
  | some loc => usList.any (fun k => strContains (pyLower loc) k)

/-- The blanking transform `clean_location_field` applies to a surviving
row. -/
def blankRowB (usList : List String) (r : JobRow) : JobRow :=
  if hasUSKeywordB usList r then r else { r with location := some "" }

/-- The geography stage of `initiate_post_process`: `drop_non_us_jobs`
(the drop pass) followed by `clean_location_field` (the blank pass). -/
def geoStage (rows : List JobRow) : Except PyErr (List JobRow) :=
  match drop_non_us_jobs COUNTRY_SET rows with
  | .error e => .error e
  | .ok kept => clean_location_field UNITED_STATES_LIST kept

/-- The rows reaching the geography passes: the master table after the
link filter, intra-run dedup, link repair, topical filter and historical
dedup. -/
def rowsBeforeGeo (rows : List JobRow) (store : Option (List JobRow)) : List JobRow :=
  histFilter store ((process_links (dropDupFirst [] (linkFilter rows))).filter keepTitleB)

/-- `post_extraction_cleaner.initiate_post_process` from the parsed master
table onward: schema filter, intra-run dedup, link repair, topical filter,
historical dedup, geography drop pass, location blank pass, commit.
Returns the run's output together with the updated historical store. -/
def consolidate (rows : List JobRow) (store : Option (List JobRow)) :
    Except PyErr (List JobRow × List JobRow) :=
  match geoStage (rowsBeforeGeo rows store) with
  | .error e => .error e
  | .ok out =>
    .ok (out, match store with
      | some db => db ++ out
      | none => out)

theorem locCheckRow_some (cs : List String) (r : JobRow) (h : r.location.isSome) :
    locCheckRow cs r = .ok (! hasCountryB cs r) := by
  obtain ⟨loc, hloc⟩ := Option.isSome_iff_exists.mp h
  match cs with
  | [] =>
    simp [locCheckRow, hasCountryB, hloc]
  | c :: cs' =>
    rw [locCheckRow.eq_def]
    simp [hloc, hasCountryB]

theorem mapE_locCheck_all_some (cs : List String) :
    ∀ rows : List JobRow, (∀ r ∈ rows, r.location.isSome) →
      mapE (locCheckRow cs) rows = .ok (rows.map (fun r => ! hasCountryB cs r)) := by
  intro rows h
  induction rows with
  | nil => rfl
  | cons r rest ih =>
    rw [mapE, locCheckRow_some cs r (h r (List.mem_cons_self r rest)),
      ih (fun x hx => h x (List.mem_cons_of_mem r hx))]
    rfl

theorem keepMasked_map_filter (p : JobRow → Bool) (rows : List JobRow) :
    keepMasked rows (rows.map p) = rows.filter p := by
  induction rows with
  | nil => rfl
  | cons r rest ih =>
    rw [List.map_cons, keepMasked, List.filter_cons]
    by_cases h : p r
    · rw [if_pos h, if_pos h, ih]
    · rw [if_neg h, if_neg h, ih]

theorem drop_ok_of_all_some (cs : List String) (rows : List JobRow)
    (h : ∀ r ∈ rows, r.location.isSome) :
    drop_non_us_jobs cs rows = .ok (rows.filter (fun r => ! hasCountryB cs r)) := by
  rw [drop_non_us_jobs, mapE_locCheck_all_some cs rows h]
  exact congrArg Except.ok (keepMasked_map_filter _ rows)

theorem drop_error_of_missing (c : String) (cs : List String) :
    ∀ rows : List JobRow, (∃ r ∈ rows, r.location = none) →
      drop_non_us_jobs (c :: cs) rows = .error .attributeError := by
  intro rows hex
  induction rows with
  | nil =>
    obtain ⟨r, hr, _⟩ := hex
    exact absurd hr (List.not_mem_nil r)
  | cons r rest ih =>
    cases hloc : r.location with
    | none =>
      rw [drop_non_us_jobs, mapE]
      rw [show locCheckRow (c :: cs) r = .error .attributeError by
        rw [locCheckRow.eq_def]; simp [hloc]]
    | some loc =>
      obtain ⟨x, hx, hxnone⟩ := hex
      rcases List.mem_cons.mp hx with rfl | hx'
      · rw [hloc] at hxnone
        exact absurd hxnone (by simp)
      · have hrest := ih ⟨x, hx', hxnone⟩
        rw [drop_non_us_jobs] at hrest ⊢
        rw [mapE, locCheckRow_some (c :: cs) r (by simp [hloc])]
        cases hm : mapE (locCheckRow (c :: cs)) rest with
        | error e =>
          rw [hm] at hrest
          exact hrest
        | ok mask =>
          rw [hm] at hrest
          simp at hrest

theorem drop_ok_inv {cs : List String} {rows out : List JobRow}
    (hne : cs ≠ []) (h : drop_non_us_jobs cs rows = .ok out) :
    (∀ r ∈ rows, r.location.isSome) ∧
    out = rows.filter (fun r => ! hasCountryB cs r) := by
  obtain ⟨c, cs', rfl⟩ := List.exists_cons_of_ne_nil hne
  have hall : ∀ r ∈ rows, r.location.isSome := by
    intro r hr
    by_contra hno
    have : r.location = none := Option.not_isSome_iff_eq_none.mp hno
    rw [drop_error_of_missing c cs' rows ⟨r, hr, this⟩] at h
    exact absurd h (by simp)
  refine ⟨hall, ?_⟩
  rw [drop_ok_of_all_some (c :: cs') rows hall] at h
  exact (Except.ok.injEq _ _).mp h.symm

theorem cleanRow_some (us : List String) (r : JobRow) (h : r.location.isSome) :
    cleanRow us r = .ok (blankRowB us r) := by
  obtain ⟨loc, hloc⟩ := Option.isSome_iff_exists.mp h
  match us with
  | [] =>
    simp [cleanRow, blankRowB, hasUSKeywordB, hloc]
  | k :: us' =>
    rw [cleanRow.eq_def]
    simp [hloc, blankRowB, hasUSKeywordB]

theorem clean_ok_of_all_some (us : List String) :
    ∀ rows : List JobRow, (∀ r ∈ rows, r.location.isSome) →
      clean_location_field us rows = .ok (rows.map (blankRowB us)) := by
  intro rows h
  induction rows with
  | nil => rfl
  | cons r rest ih =>
    rw [clean_location_field, mapE, cleanRow_some us r (h r (List.mem_cons_self r rest))]
    have := ih (fun x hx => h x (List.mem_cons_of_mem r hx))
    rw [clean_location_field] at this
    rw [this]
    rfl

theorem blankRowB_job_link (us : List String) (r : JobRow) :
    (blankRowB us r).job_link = r.job_link := by
  rw [blankRowB]
  by_cases h : hasUSKeywordB us r
  · rw [if_pos h]
  · rw [if_neg h]

theorem COUNTRY_SET_ne_nil : COUNTRY_SET ≠ [] := by
  rw [COUNTRY_SET]
  simp

theorem mem_dropDupFirst {r : JobRow} :
    ∀ (seen rows : List JobRow), r ∈ dropDupFirst seen rows → r ∈ rows := by
  intro seen rows
  induction rows generalizing seen with
  | nil =>
    rw [dropDupFirst]
    exact fun h => absurd h (List.not_mem_nil r)
  | cons x rest ih =>
    rw [dropDupFirst]
    by_cases hx : x ∈ seen
    · rw [if_pos hx]
      exact fun h => List.mem_cons_of_mem x (ih seen h)
    · rw [if_neg hx]
      intro h
      rcases List.mem_cons.mp h with rfl | h'
      · exact List.mem_cons_self r rest
      · exact List.mem_cons_of_mem x (ih (x :: seen) h')

theorem process_links_nil : process_links [] = [] := rfl

theorem process_links_cons_none {x : JobRow} {rest : List JobRow}
    (hl : x.job_link = none) :
    process_links (x :: rest) = x :: process_links rest := by
  rw [process_links, hl]

theorem process_links_cons_http {x : JobRow} {rest : List JobRow} {l : String}
    (hl : x.job_link = some l) (hh : strContains l "http" = true) :
    process_links (x :: rest) = x :: process_links rest := by
  rw [process_links, hl]
  exact if_pos hh

theorem process_links_cons_prefixed {x : JobRow} {rest : List JobRow} {l p : String}
    (hl : x.job_link = some l) (hh : ¬ strContains l "http" = true)
    (hp : LINK_PREPEND.lookup x.company_name = some p) :
    process_links (x :: rest) = { x with job_link := some (p ++ l) } :: process_links rest := by
  rw [process_links, hl]
  simp only [hh, hp, if_false]
  rfl

theorem process_links_cons_drop {x : JobRow} {rest : List JobRow} {l : String}
    (hl : x.job_link = some l) (hh : ¬ strContains l "http" = true)
    (hp : LINK_PREPEND.lookup x.company_name = none) :
    process_links (x :: rest) = process_links rest := by
  rw [process_links, hl]
  simp only [hh, hp, if_false]
  rfl

theorem process_links_mem {r' : JobRow} :
    ∀ rows : List JobRow, r' ∈ process_links rows →
      ∃ r ∈ rows, r'.location = r.location := by
  intro rows
  induction rows with
  | nil =>
    rw [process_links_nil]
    exact fun h => absurd h (List.not_mem_nil r')
  | cons x rest ih =>
    cases hl : x.job_link with
    | none =>
      rw [process_links_cons_none hl]
      intro h
      rcases List.mem_cons.mp h with rfl | h'
      · exact ⟨r', List.mem_cons_self _ _, rfl⟩
      · obtain ⟨r, hr, he⟩ := ih h'
        exact ⟨r, List.mem_cons_of_mem x hr, he⟩
    | some l =>
      by_cases hh : strContains l "http"
      · rw [process_links_cons_http hl hh]
        intro h
        rcases List.mem_cons.mp h with rfl | h'
        · exact ⟨r', List.mem_cons_self _ _, rfl⟩
        · obtain ⟨r, hr, he⟩ := ih h'
          exact ⟨r, List.mem_cons_of_mem x hr, he⟩
      · cases hp : LINK_PREPEND.lookup x.company_name with
        | some p =>
          rw [process_links_cons_prefixed hl hh hp]
          intro h
          rcases List.mem_cons.mp h with rfl | h'
          · exact ⟨x, List.mem_cons_self _ _, rfl⟩
          · obtain ⟨r, hr, he⟩ := ih h'
            exact ⟨r, List.mem_cons_of_mem x hr, he⟩
        | none =>
          rw [process_links_cons_drop hl hh hp]
          intro h
          obtain ⟨r, hr, he⟩ := ih h
          exact ⟨r, List.mem_cons_of_mem x hr, he⟩

theorem histFilter_mem {r : JobRow} {store : Option (List JobRow)} {rows : List JobRow}
    (h : r ∈ histFilter store rows) : r ∈ rows := by
  cases store with
  | none => exact h
  | some db => exact List.mem_of_mem_filter h

/-- Every row reaching the geography passes keeps the location value of a
row that survived the link filter. -/
theorem rowsBeforeGeo_all_some {rows : List JobRow} {store : Option (List JobRow)}
    (h : ∀ r ∈ linkFilter rows, r.location.isSome) :
    ∀ r ∈ rowsBeforeGeo rows store, r.location.isSome := by
  intro r hr
  have h1 : r ∈ (process_links (dropDupFirst [] (linkFilter rows))).filter keepTitleB :=
    histFilter_mem hr
  have h2 : r ∈ process_links (dropDupFirst [] (linkFilter rows)) :=
    List.mem_of_mem_filter h1
  obtain ⟨x, hx, hloc⟩ := process_links_mem _ h2
  rw [hloc]
  exact h x (mem_dropDupFirst [] (linkFilter rows) hx)

theorem histFilter_none (rows : List JobRow) : histFilter none rows = rows := rfl

theorem histFilter_some (db rows : List JobRow) :
    histFilter (some db) rows =
      rows.filter (fun r => ! db.any (fun d => decide (d.job_link = r.job_link))) := rfl

/-- C5: on every record set with string-valued locations, the geography
stage equals: first drop every record whose lowercased location contains a
recognized country name (the drop pass), then blank the location of every
surviving record that lacks a U.S. keyword, preserving records with a
U.S. keyword unchanged (the blank pass, applied after the drop pass). -/
theorem c5_geography_filter (rows : List JobRow)
    (h : ∀ r ∈ rows, r.location.isSome) :
    geoStage rows = .ok ((rows.filter (fun r => ! hasCountryB COUNTRY_SET r)).map
      (blankRowB UNITED_STATES_LIST)) := by
  rw [geoStage, drop_ok_of_all_some COUNTRY_SET rows h]
  exact clean_ok_of_all_some UNITED_STATES_LIST _
    (fun r hr => h r (List.mem_of_mem_filter hr))

set_option maxRecDepth 10000 in
/-- Witness for C5, at the spec's three examples: `"Berlin, Germany"` is
dropped, `"Remote"` is kept with a blanked location, and
`"New York, United States"` is kept unchanged. -/
theorem c5_geography_filter_witness :
    geoStage [⟨"x", some "engineer", some "Berlin, Germany", some "1", some "http://a"⟩,
              ⟨"x", some "engineer", some "Remote", some "2", some "http://b"⟩,
              ⟨"x", some "engineer", some "New York, United States", some "3", some "http://c"⟩] =
      .ok [⟨"x", some "engineer", some "", some "2", some "http://b"⟩,
           ⟨"x", some "engineer", some "New York, United States", some "3", some "http://c"⟩] :=
  (c5_geography_filter _ (by decide)).trans (congrArg Except.ok (by decide))

/-- C6 (counterexample): the code decides "has a scheme" by the substring
test `'http' in link`, not by a recognizable scheme.  The record below has
a schemeless link containing `"http"` as an infix and an unlisted company,
so the claim requires it to be dropped, but the repair loop keeps it
unchanged. -/
theorem c6_link_repair_cex :
    hasRecognizableScheme "id-http-42" = false ∧
    LINK_PREPEND.lookup "zzz" = none ∧
    process_links [⟨"zzz", some "t", some "l", some "i", some "id-http-42"⟩] =
      [⟨"zzz", some "t", some "l", some "i", some "id-http-42"⟩] := by
  refine ⟨by decide, by decide, by decide⟩

/-- C6 (amended): the link-repair loop treats exactly the rows whose link
does not contain the substring `"http"` as schemeless: such a row gets the
company's configured prefix prepended, or is dropped when no prefix is
configured; every row whose link contains `"http"` (and every row with a
missing link) passes through unchanged.  In particular an `"amazon"` row
with link `"12345"` becomes `"https://www.amazon.jobs/12345"`, and an
unlisted company's row with link `"12345"` is dropped. -/
theorem c6_link_repair :
    (∀ rows : List JobRow, process_links rows = rows.filterMap repairRow) ∧
    repairRow ⟨"amazon", some "t", some "austin", some "1", some "12345"⟩ =
      some ⟨"amazon", some "t", some "austin", some "1", some "https://www.amazon.jobs/12345"⟩ ∧
    repairRow ⟨"zzz", some "t", some "austin", some "1", some "12345"⟩ = none := by
  refine ⟨?_, by decide, by decide⟩
  intro rows
  induction rows with
  | nil => rfl
  | cons x rest ih =>
    cases hl : x.job_link with
    | none =>
      rw [process_links_cons_none hl, List.filterMap_cons]
      have hx : repairRow x = some x := by rw [repairRow, hl]
      rw [hx, ih]
    | some l =>
      by_cases hh : strContains l "http"
      · rw [process_links_cons_http hl hh, List.filterMap_cons]
        have hx : repairRow x = some x := by
          rw [repairRow, hl]
          exact if_pos hh
        rw [hx, ih]
      · cases hp : LINK_PREPEND.lookup x.company_name with
        | some p =>
          rw [process_links_cons_prefixed hl hh hp, List.filterMap_cons]
          have hx : repairRow x = some { x with job_link := some (p ++ l) } := by
            rw [repairRow, hl]
            simp only [hh, hp, if_false]
            rfl
          rw [hx, ih]
        | none =>
          rw [process_links_cons_drop hl hh hp, List.filterMap_cons]
          have hx : repairRow x = none := by
            rw [repairRow, hl]
            simp only [hh, hp, if_false]
            rfl
          rw [hx, ih]

/-- C10: the geography passes call `.lower()` on the location
unconditionally, so a record with a missing (non-string) location that
reaches them makes consolidation raise an uncaught `AttributeError`; and
when every record surviving the link filter has a string location,
consolidation completes without error. -/
theorem c10_location_lower_error (rows : List JobRow) (store : Option (List JobRow)) :
    ((∃ r ∈ rowsBeforeGeo rows store, r.location = none) →
      consolidate rows store = .error .attributeError) ∧
    ((∀ r ∈ linkFilter rows, r.location.isSome) →
      ∃ outdb, consolidate rows store = .ok outdb) := by
  constructor
  · intro hex
    obtain ⟨c, cs, hcc⟩ := List.exists_cons_of_ne_nil COUNTRY_SET_ne_nil
    have hdrop : drop_non_us_jobs COUNTRY_SET (rowsBeforeGeo rows store) =
        .error .attributeError := by
      rw [hcc]
      exact drop_error_of_missing c cs _ hex
    have hgeo : geoStage (rowsBeforeGeo rows store) = .error .attributeError := by
      rw [geoStage, hdrop]
    rw [consolidate, hgeo]
  · intro hall
    have hsome : ∀ r ∈ rowsBeforeGeo rows store, r.location.isSome :=
      rowsBeforeGeo_all_some hall
    have hdrop := drop_ok_of_all_some COUNTRY_SET _ hsome
    have hgeo : geoStage (rowsBeforeGeo rows store) =
        .ok (((rowsBeforeGeo rows store).filter
          (fun r => ! hasCountryB COUNTRY_SET r)).map (blankRowB UNITED_STATES_LIST)) := by
      rw [geoStage, hdrop]
      exact clean_ok_of_all_some UNITED_STATES_LIST _
        (fun r hr => hsome r (List.mem_of_mem_filter hr))
    exact ⟨(((rowsBeforeGeo rows store).filter (fun r => ! hasCountryB COUNTRY_SET r)).map
        (blankRowB UNITED_STATES_LIST),
      match store with
      | some db => db ++ ((rowsBeforeGeo rows store).filter
          (fun r => ! hasCountryB COUNTRY_SET r)).map (blankRowB UNITED_STATES_LIST)
      | none => ((rowsBeforeGeo rows store).filter
          (fun r => ! hasCountryB COUNTRY_SET r)).map (blankRowB UNITED_STATES_LIST)),
      by rw [consolidate, hgeo]
         cases store <;> rfl⟩

set_option maxRecDepth 10000 in
/-- Witness for C10: a record with link `"http://x"` but no location
reaches the geography passes and consolidation raises; a record with a
string location consolidates without error. -/
theorem c10_location_lower_error_witness :
    consolidate [⟨"zzz", some "dev", none, some "9", some "http://x"⟩] none =
      .error .attributeError ∧
    ∃ outdb, consolidate
      [⟨"zzz", some "dev", some "austin", some "9", some "http://x"⟩] none = .ok outdb :=
  ⟨(c10_location_lower_error [⟨"zzz", some "dev", none, some "9", some "http://x"⟩] none).1
      ⟨⟨"zzz", some "dev", none, some "9", some "http://x"⟩, by decide, rfl⟩,
   (c10_location_lower_error [⟨"zzz", some "dev", some "austin", some "9", some "http://x"⟩]
      none).2 (by decide)⟩

/-- Inversion of a successful consolidation run: every row reaching the
geography passes has a string location, the output is the country-filtered
rows with locations blanked, and the committed store appends the output. -/
theorem consolidate_ok_inv {rows : List JobRow} {store : Option (List JobRow)}
    {out db : List JobRow}
    (h : consolidate rows store = .ok (out, db)) :
    (∀ r ∈ rowsBeforeGeo rows store, r.location.isSome) ∧
    out = ((rowsBeforeGeo rows store).filter
      (fun r => ! hasCountryB COUNTRY_SET r)).map (blankRowB UNITED_STATES_LIST) ∧
    db = (match store with | some d => d ++ out | none => out) := by
  cases hg : geoStage (rowsBeforeGeo rows store) with
  | error e =>
    rw [consolidate, hg] at h
    exact absurd h (by simp)
  | ok o =>
    rw [consolidate, hg] at h
    injection h with hp
    rw [Prod.mk.injEq] at hp
    obtain ⟨ho, hdb⟩ := hp
    rw [geoStage] at hg
    cases hd : drop_non_us_jobs COUNTRY_SET (rowsBeforeGeo rows store) with
    | error e =>
      rw [hd] at hg
      exact absurd hg (by simp)
    | ok kept =>
      rw [hd] at hg
      obtain ⟨hall, hkept⟩ := drop_ok_inv COUNTRY_SET_ne_nil hd
      have hksome : ∀ r ∈ kept, r.location.isSome := fun r hr =>
        hall r (List.mem_of_mem_filter (hkept ▸ hr))
      have hg' : clean_location_field UNITED_STATES_LIST kept = Except.ok o := hg
      rw [clean_ok_of_all_some UNITED_STATES_LIST kept hksome] at hg'
      injection hg' with ho2
      refine ⟨hall, ?_, ?_⟩
      · rw [← ho, ← ho2, hkept]
      · cases store with
        | none =>
          have hdb' : o = db := hdb
          show db = out
          rw [← hdb', ho]
        | some d =>
          have hdb' : d ++ o = db := hdb
          show db = d ++ out
          rw [← hdb', ho]

/-- C7: consolidation is idempotent with respect to the historical store:
if a run commits its output and the same parsed record set is consolidated
again against the updated store, the second run's output is empty and the
store is unchanged — in particular its total record count is unchanged. -/
theorem c7_consolidation_idempotent (rows : List JobRow) (store : Option (List JobRow))
    (out1 db1 out2 db2 : List JobRow)
    (h1 : consolidate rows store = .ok (out1, db1))
    (h2 : consolidate rows (some db1) = .ok (out2, db2)) :
    out2 = [] ∧ db2 = db1 ∧ db2.length = db1.length := by
  obtain ⟨hall1, hout1, hdb1⟩ := consolidate_ok_inv h1
  obtain ⟨hall2, hout2, hdb2⟩ := consolidate_ok_inv h2
  have hB : rowsBeforeGeo rows (some db1) =
      ((process_links (dropDupFirst [] (linkFilter rows))).filter keepTitleB).filter
        (fun r => ! db1.any (fun d => decide (d.job_link = r.job_link))) := rfl
  have hempty : (rowsBeforeGeo rows (some db1)).filter
      (fun r => ! hasCountryB COUNTRY_SET r) = [] := by
    rw [List.eq_nil_iff_forall_not_mem]
    intro r hr
    obtain ⟨hrM2, hnc⟩ := List.mem_filter.mp hr
    rw [hB] at hrM2
    obtain ⟨hrB, hnotin⟩ := List.mem_filter.mp hrM2
    simp only [Bool.not_eq_true', List.any_eq_false, decide_eq_true_eq] at hnotin
    have hrM1 : r ∈ rowsBeforeGeo rows store := by
      cases store with
      | none => exact hrB
      | some d =>
        have hd1 : db1 = d ++ out1 := hdb1
        rw [show rowsBeforeGeo rows (some d) =
            ((process_links (dropDupFirst [] (linkFilter rows))).filter keepTitleB).filter
              (fun r => ! d.any (fun x => decide (x.job_link = r.job_link))) from rfl]
        apply List.mem_filter.mpr
        refine ⟨hrB, ?_⟩
        simp only [Bool.not_eq_true', List.any_eq_false, decide_eq_true_eq]
        intro x hx
        exact hnotin x (by rw [hd1]; exact List.mem_append_left _ hx)
    have hrkept1 : r ∈ (rowsBeforeGeo rows store).filter
        (fun r => ! hasCountryB COUNTRY_SET r) :=
      List.mem_filter.mpr ⟨hrM1, hnc⟩
    have hblank : blankRowB UNITED_STATES_LIST r ∈ out1 := by
      rw [hout1]
      exact List.mem_map_of_mem _ hrkept1
    have hblankdb1 : blankRowB UNITED_STATES_LIST r ∈ db1 := by
      cases store with
      | none =>
        rw [show db1 = out1 from hdb1]
        exact hblank
      | some d =>
        rw [show db1 = d ++ out1 from hdb1]
        exact List.mem_append_right d hblank
    exact absurd (blankRowB_job_link UNITED_STATES_LIST r) (hnotin _ hblankdb1)
  have hout2nil : out2 = [] := by
    rw [hout2, hempty]
    rfl
  have hdb2eq : db2 = db1 := by
    rw [show db2 = db1 ++ out2 from hdb2, hout2nil, List.append_nil]
  exact ⟨hout2nil, hdb2eq, by rw [hdb2eq]⟩

set_option maxRecDepth 100000 in
/-- Witness for C7: one New-York record consolidated against an empty
store commits `[r]`; the second run against store `[r]` outputs nothing
and leaves the store at `[r]`. -/
theorem c7_consolidation_idempotent_witness :
    ([] : List JobRow) = [] ∧
    ([(⟨"x", some "engineer", some "New York, United States", some "3",
        some "http://c"⟩ : JobRow)] : List JobRow) =
      [⟨"x", some "engineer", some "New York, United States", some "3", some "http://c"⟩] ∧
    ([(⟨"x", some "engineer", some "New York, United States", some "3",
        some "http://c"⟩ : JobRow)] : List JobRow).length =
      ([(⟨"x", some "engineer", some "New York, United States", some "3",
        some "http://c"⟩ : JobRow)] : List JobRow).length :=
  c7_consolidation_idempotent
    [⟨"x", some "engineer", some "New York, United States", some "3", some "http://c"⟩]
    none
    [⟨"x", some "engineer", some "New York, United States", some "3", some "http://c"⟩]
    [⟨"x", some "engineer", some "New York, United States", some "3", some "http://c"⟩]
    []
    [⟨"x", some "engineer", some "New York, United States", some "3", some "http://c"⟩]
    (by rfl) (by rfl)
